import Mathlib

/-!
Shallow embedding of `ml1_mnist/utils/model_selection.py` (class
`TrainTestSplitter`) and of the model-loading logic of
`ml1_mnist/utils/read_write.py` (`load_model`), with theorems checking
the specification's claims about them.

Modelling conventions:
* Python lists of indices are `List Nat`; the label vector is a `List α`
  with decidable equality on labels.
* `random.Random` is a deterministic generator with state `Nat`;
  `random.shuffle` is a Fisher-Yates style pass driven by it.  The only
  facts used are that it is a pure function of the state and that it
  returns a permutation of its input.
* The float `train_ratio` is read as the exact rational `rn / rd`
  (`rn rd : Nat`); Python's `int(train_ratio * m)` truncates toward zero,
  which for nonnegative values is floor, i.e. `rn * m / rd` in `Nat`
  division.
* Python 2 `/` on nonnegative ints is `Nat` division; `xrange(k)` is
  `List.range k`; dict grouping keeps first-seen key order (the
  deterministic reading the spec fixes for group enumeration).
* Fallible operations return `Except String`: `make_k_folds` hits
  `ZeroDivisionError` when `n_folds = 0` on the non-stratified path, and
  `k_fold_split` inherits numpy's `ValueError` when `np.concatenate` is
  handed an empty list of arrays.  `split` has no failing primitive.
-/

namespace MnistSplit

/-- One step of a linear congruential generator standing in for the
Mersenne-Twister state advance of `random.Random`. -/
def lcgNext (g : Nat) : Nat :=
  (6364136223846793005 * g + 1442695040888963407) % 18446744073709551616

/-- Fisher-Yates style shuffle, fuelled so the recursion is structural:
draw a position from the generator state, move that element to the front,
recurse on the rest.  Models `random.Random.shuffle`. -/
def shuffleGo {α : Type} : Nat → List α → Nat → List α × Nat
  | 0, _, g => ([], g)
  | _ + 1, [], g => ([], g)
  | fuel + 1, x :: xs, g =>
    let i := g % (xs.length + 1)
    let p := shuffleGo fuel ((x :: xs).eraseIdx i) (lcgNext g)
    ((x :: xs).getD i x :: p.1, p.2)

/-- `random.shuffle` on a whole list, returning the new generator state. -/
def shuffleList {α : Type} (l : List α) (g : Nat) : List α × Nat :=
  shuffleGo l.length l g

/-- Configuration taken by `TrainTestSplitter.__init__`: the `shuffle`
flag and the optional `random_seed`.  The mutable `self.rng` state is
passed explicitly as a `Nat` argument of each operation. -/
structure TrainTestSplitter where
  shuffle : Bool
  random_seed : Option Nat

/-- `TrainTestSplitter._flush_rng`: reseed the generator when a seed is
configured, otherwise keep the running state. -/
def flushRng (s : TrainTestSplitter) (g : Nat) : Nat :=
  match s.random_seed with
  | some sd => sd
  | none => g

/-- Shuffle when the flag is set, else leave the list untouched. -/
def maybeShuffle {α : Type} (sh : Bool) (l : List α) (g : Nat) : List α × Nat :=
  if sh then shuffleList l g else (l, g)

/-- Append index `i` to the group of label `lab`, creating that group at
the end when the label is new: one pass of the dict-filling loop body
`labels_indices[label].append(index)`. -/
def addToGroups {α : Type} [DecidableEq α] :
    List (α × List Nat) → α → Nat → List (α × List Nat)
  | [], lab, i => [(lab, [i])]
  | (l, is) :: gs, lab, i =>
    if l = lab then (l, is ++ [i]) :: gs else (l, is) :: addToGroups gs lab i

/-- The grouping loop `for index, label in enumerate(y)` resumed at
position `i` with groups `gs` already accumulated. -/
def groupGo {α : Type} [DecidableEq α] :
    List α → Nat → List (α × List Nat) → List (α × List Nat)
  | [], _, gs => gs
  | lab :: rest, i, gs => groupGo rest (i + 1) (addToGroups gs lab i)

/-- `labels_indices`: indices grouped by label value, groups listed in
first-seen label order. -/
def groupIndices {α : Type} [DecidableEq α] (y : List α) : List (α × List Nat) :=
  groupGo y 0 []

/-- Python's `int(train_ratio * m)` with the float `train_ratio` read as
the exact rational `rn / rd`. -/
def trainSize (rn rd m : Nat) : Nat := rn * m / rd

/-- `TrainTestSplitter.split`: the `(train, test)` index pair plus the
generator state after the call.  The body has no `raise` and no failing
primitive, so every input yields `Except.ok`. -/
def split {α : Type} [DecidableEq α] (s : TrainTestSplitter) (g : Nat)
    (y : List α) (rn rd : Nat) (stratify : Bool) :
    Except String ((List Nat × List Nat) × Nat) :=
  let g0 := flushRng s g
  if stratify then
    let groups := groupIndices y
    let train := (groups.map fun p => p.2.take (trainSize rn rd p.2.length)).flatten
    let test := (groups.map fun p => p.2.drop (trainSize rn rd p.2.length)).flatten
    if s.shuffle then
      let p1 := shuffleList train g0
      let p2 := shuffleList test p1.2
      Except.ok ((p1.1, p2.1), p2.2)
    else
      Except.ok ((train, test), g0)
  else
    let p := maybeShuffle s.shuffle (List.range y.length) g0
    let ts := trainSize rn rd y.length
    Except.ok ((p.1.take ts, p.1.drop ts), p.2)

/-- Non-stratified fold `k` of `make_k_folds`:
`indices[k*fs:(k+1)*fs]` for `k < n_folds - 1`, else `indices[k*fs:]`. -/
def rangeSlice {α : Type} (l : List α) (K k fs : Nat) : List α :=
  if k < K - 1 then (l.drop (k * fs)).take fs else l.drop (k * fs)

/-- Stratified per-group slice for fold `k`, the per-group size
`len(indices) / n_folds` being recomputed inside the loop. -/
def groupSlice (is : List Nat) (K k : Nat) : List Nat :=
  let size := is.length / K
  if k ≠ K - 1 then (is.drop (k * size)).take size else is.drop (k * size)

/-- Thread the generator state through a list of stateful steps (the
per-fold shuffles of the stratified path consume the stream in order). -/
def mapRng {α β : Type} (f : α → Nat → β × Nat) : List α → Nat → List β × Nat
  | [], g => ([], g)
  | a :: as, g =>
    let p := f a g
    let q := mapRng f as p.2
    (p.1 :: q.1, q.2)

/-- `TrainTestSplitter.make_k_folds`, the generator materialised as the
list of all folds it yields, plus the final generator state.  Python 2
`/` raises `ZeroDivisionError` when `n_folds = 0` is reached on the
non-stratified path (after the shuffle already ran). -/
def makeKFolds {α : Type} [DecidableEq α] (s : TrainTestSplitter) (g : Nat)
    (y : List α) (K : Nat) (stratify : Bool) :
    Except String (List (List Nat) × Nat) :=
  let g0 := flushRng s g
  if stratify then
    let groups := (groupIndices y).map Prod.snd
    Except.ok (mapRng
      (fun k gr =>
        maybeShuffle s.shuffle ((groups.map fun is => groupSlice is K k).flatten) gr)
      (List.range K) g0)
  else
    let p := maybeShuffle s.shuffle (List.range y.length) g0
    if K = 0 then Except.error ("ZeroDivisionError: integer division or modulo by zero")
    else Except.ok ((List.range K).map (fun k => rangeSlice p.1 K k (y.length / K)), p.2)

/-- `np.concatenate`: rejects an empty list of arrays. -/
def npConcat (ls : List (List Nat)) : Except String (List Nat) :=
  match ls with
  | [] => Except.error ("ValueError: need at least one array to concatenate")
  | _ => Except.ok ls.flatten

/-- Run a fallible step over a list, stopping at the first error (the
order in which the generator body of `k_fold_split` runs). -/
def mapExcept {α β : Type} (f : α → Except String β) : List α → Except String (List β)
  | [] => Except.ok []
  | a :: as =>
    match f a with
    | Except.error e => Except.error e
    | Except.ok b =>
      match mapExcept f as with
      | Except.error e => Except.error e
      | Except.ok bs => Except.ok (b :: bs)

/-- `TrainTestSplitter.k_fold_split`: materialise all folds of
`make_k_folds` once, then for each `i` yield the pair
`(np.concatenate(folds[:i] + folds[i+1:]), folds[i])`. -/
def kFoldSplit {α : Type} [DecidableEq α] (s : TrainTestSplitter) (g : Nat)
    (y : List α) (K : Nat) (stratify : Bool) :
    Except String (List (List Nat × List Nat) × Nat) :=
  match makeKFolds s (flushRng s g) y K stratify with
  | Except.error e => Except.error e
  | Except.ok p =>
    match mapExcept (fun i =>
        match npConcat (p.1.take i ++ p.1.drop (i + 1)) with
        | Except.error e => Except.error e
        | Except.ok tr => Except.ok (tr, p.1.getD i [])) (List.range K) with
    | Except.error e => Except.error e
    | Except.ok pairs => Except.ok (pairs, p.2)

/-- Python's `path.rsplit('.', 1)` followed by unpacking into two names:
`none` when the string holds no dot (the unpack then raises). -/
def rsplitDot (s : String) : Option (String × String) :=
  let parts := s.data.splitOn ('.')
  if parts.length ≤ 1 then none
  else some (String.mk (List.intercalate [('.')] parts.dropLast),
    String.mk (parts.getLastD []))

/-- Modelled from the spec: the repository's `base.py` (class
`BaseEstimator` with `set_params` and `_deserialize`) is not among the
excerpt's sources; per the spec the loader "reconstructs and configures a
model instance" from the mapping, so a configured model is modelled as
the dotted class path together with the parameter fields handed over for
configuration. -/
structure LoadedModel where
  path : String
  fields : List (String × String)

/-- `load_model` after `json.load`: the parsed JSON mapping is an
association list of string keys, and the import machinery is abstracted
as the predicate `classes module name`, true when
`getattr(importlib.import_module(module), name)` produces a class. -/
def load_model (classes : String → String → Bool)
    (params : List (String × String)) : Except String LoadedModel :=
  match params.lookup ("model") with
  | none => Except.error ("missed required field: model")
  | some mp =>
    match rsplitDot mp with
    | none => Except.error ("ValueError: need more than 1 value to unpack")
    | some mn =>
      if classes mn.1 mn.2 then Except.ok ⟨mp, params⟩
      else Except.error ("cannot find model " ++ mp)

/-- Invariant of the grouping loop after the first `i` labels have been
processed: group keys are distinct, every processed index sits in some
group, and each group holds exactly the processed indices carrying its
label, in ascending order. -/
def GroupsOk {α : Type} (y : List α) (i : Nat) (gs : List (α × List Nat)) : Prop :=
  ((gs.map Prod.fst).Nodup) ∧
  (∀ j, j < i → ∃ p, p ∈ gs ∧ j ∈ p.2) ∧
  (∀ p, p ∈ gs → p.2.Sorted (· < ·) ∧ ∀ j, j ∈ p.2 ↔ (j < i ∧ y[j]? = some p.1))

/-- Picking the element at a position and the remainder of an erasure is a
rearrangement of the original list. -/
theorem getD_cons_eraseIdx_perm {α : Type} (d : α) :
    ∀ (l : List α) (i : Nat), i < l.length →
      (l.getD i d :: l.eraseIdx i).Perm l := by
  intro l
  induction l with
  | nil => intro i h; simp at h
  | cons x xs ih =>
    intro i h
    cases i with
    | zero => simp
    | succ j =>
      have hj : j < xs.length := by simpa using h
      have step : (xs.getD j d :: x :: xs.eraseIdx j).Perm (x :: xs.getD j d :: xs.eraseIdx j) :=
        List.Perm.swap x (xs.getD j d) (xs.eraseIdx j)
      simpa using step.trans ((ih j hj).cons x)

/-- The fuelled shuffle returns a permutation of its input. -/
theorem shuffleGo_perm {α : Type} :
    ∀ (fuel : Nat) (l : List α) (g : Nat), l.length ≤ fuel →
      ((shuffleGo fuel l g).1).Perm l := by
  intro fuel
  induction fuel with
  | zero =>
    intro l g h
    have : l = [] := List.eq_nil_of_length_eq_zero (Nat.le_zero.mp h)
    subst this; simp [shuffleGo]
  | succ n ih =>
    intro l g h
    match l with
    | [] => simp [shuffleGo]
    | x :: xs =>
      set i := g % (xs.length + 1) with hi
      have hlt' : i < xs.length + 1 := Nat.mod_lt _ (Nat.succ_pos _)
      have hlt : i < (x :: xs).length := by simpa using hlt'
      have herase : ((x :: xs).eraseIdx i).length = xs.length := by
        rw [List.length_eraseIdx]
        simp [hlt']
      have hrec := ih ((x :: xs).eraseIdx i) (lcgNext g) (by
        rw [herase]
        have hx : xs.length + 1 ≤ n + 1 := by simpa using h
        exact Nat.le_of_succ_le_succ hx)
      have hform :
          (shuffleGo (n + 1) (x :: xs) g).1
            = (x :: xs).getD i x :: (shuffleGo n ((x :: xs).eraseIdx i) (lcgNext g)).1 := by
        simp [shuffleGo]
      rw [hform]
      exact (hrec.cons _).trans (getD_cons_eraseIdx_perm x (x :: xs) i hlt)

/-- `shuffleList` permutes its input. -/
theorem shuffleList_perm {α : Type} (l : List α) (g : Nat) :
    ((shuffleList l g).1).Perm l :=
  shuffleGo_perm l.length l g (Nat.le_refl _)

/-- `maybeShuffle` permutes its input. -/
theorem maybeShuffle_perm {α : Type} (sh : Bool) (l : List α) (g : Nat) :
    ((maybeShuffle sh l g).1).Perm l := by
  cases sh with
  | false => simp [maybeShuffle]
  | true => simpa [maybeShuffle] using shuffleList_perm l g

/-- With the flag off, `maybeShuffle` is the identity on the pair. -/
theorem maybeShuffle_false {α : Type} (l : List α) (g : Nat) :
    maybeShuffle false l g = (l, g) := rfl

/-- Splitting an elementwise concatenation: interleaved appends can be
pulled apart into the two flattened halves. -/
theorem flatten_map_append_perm {α β : Type} :
    ∀ (ks : List β) (A B : β → List α),
      ((ks.map fun k => A k ++ B k).flatten).Perm
        ((ks.map A).flatten ++ (ks.map B).flatten) := by
  intro ks
  induction ks with
  | nil => intro A B; simp
  | cons k ks ih =>
    intro A B
    simp only [List.map_cons, List.flatten_cons]
    have h1 : ((ks.map fun k => A k ++ B k).flatten).Perm
        ((ks.map A).flatten ++ (ks.map B).flatten) := ih A B
    have h2 : (B k ++ ((ks.map A).flatten ++ (ks.map B).flatten)).Perm
        ((ks.map A).flatten ++ (B k ++ (ks.map B).flatten)) := by
      have hswap : (B k ++ (ks.map A).flatten).Perm ((ks.map A).flatten ++ B k) :=
        List.perm_append_comm
      have e1 : (B k ++ ((ks.map A).flatten ++ (ks.map B).flatten)).Perm
          ((B k ++ (ks.map A).flatten) ++ (ks.map B).flatten) := by
        rw [List.append_assoc]
      have e2 : ((B k ++ (ks.map A).flatten) ++ (ks.map B).flatten).Perm
          (((ks.map A).flatten ++ B k) ++ (ks.map B).flatten) :=
        hswap.append_right _
      have e3 : (((ks.map A).flatten ++ B k) ++ (ks.map B).flatten).Perm
          ((ks.map A).flatten ++ (B k ++ (ks.map B).flatten)) := by
        rw [List.append_assoc]
      exact (e1.trans e2).trans e3
    have e4 : (A k ++ B k ++ ((ks.map fun k => A k ++ B k).flatten)).Perm
        (A k ++ B k ++ ((ks.map A).flatten ++ (ks.map B).flatten)) :=
      h1.append_left _
    have e5 : (A k ++ B k ++ ((ks.map A).flatten ++ (ks.map B).flatten)).Perm
        (A k ++ ((ks.map A).flatten ++ (B k ++ (ks.map B).flatten))) := by
      rw [List.append_assoc]
      exact h2.append_left _
    have e6 : A k ++ ((ks.map A).flatten ++ (B k ++ (ks.map B).flatten))
        = (A k ++ (ks.map A).flatten) ++ (B k ++ (ks.map B).flatten) := by
      rw [List.append_assoc]
    exact (e4.trans e5).trans (e6 ▸ List.Perm.refl _)

/-- Appending one index to its label group only adds that index to the
multiset of all grouped indices. -/
theorem addToGroups_flatten_perm {α : Type} [DecidableEq α] :
    ∀ (gs : List (α × List Nat)) (lab : α) (i : Nat),
      (((addToGroups gs lab i).map Prod.snd).flatten).Perm
        ((gs.map Prod.snd).flatten ++ [i]) := by
  intro gs
  induction gs with
  | nil => intro lab i; simp [addToGroups]
  | cons p gs ih =>
    intro lab i
    obtain ⟨l, is⟩ := p
    by_cases hl : l = lab
    · simp only [addToGroups, if_pos hl, List.map_cons, List.flatten_cons]
      have e1 : (is ++ [i]) ++ (gs.map Prod.snd).flatten
          = is ++ ([i] ++ (gs.map Prod.snd).flatten) := by
        rw [List.append_assoc]
      have e2 : ([i] ++ (gs.map Prod.snd).flatten).Perm
          ((gs.map Prod.snd).flatten ++ [i]) := List.perm_append_comm
      simpa [List.append_assoc] using e2.append_left is
    · simp only [addToGroups, if_neg hl, List.map_cons, List.flatten_cons]
      have h1 := (ih lab i).append_left is
      rw [← List.append_assoc] at h1
      exact h1

/-- The grouping loop appends exactly the still-unprocessed index range to
the multiset of grouped indices. -/
theorem groupGo_flatten_perm {α : Type} [DecidableEq α] :
    ∀ (rest : List α) (i : Nat) (gs : List (α × List Nat)),
      (((groupGo rest i gs).map Prod.snd).flatten).Perm
        ((gs.map Prod.snd).flatten ++ List.range' i rest.length) := by
  intro rest
  induction rest with
  | nil => intro i gs; simp [groupGo]
  | cons lab rest ih =>
    intro i gs
    have h1 := ih (i + 1) (addToGroups gs lab i)
    have h2 := (addToGroups_flatten_perm gs lab i).append_right
      (List.range' (i + 1) rest.length)
    have h3 := h1.trans h2
    rw [List.append_assoc] at h3
    have e : [i] ++ List.range' (i + 1) rest.length = List.range' i (rest.length + 1) := by
      simp [List.range'_succ]
    rw [e] at h3
    simpa [groupGo] using h3

/-- `labels_indices` groups every index of `[0, n)` exactly once: the
concatenation of all groups is a rearrangement of `range n`. -/
theorem groupIndices_flatten_perm {α : Type} [DecidableEq α] (y : List α) :
    (((groupIndices y).map Prod.snd).flatten).Perm (List.range y.length) := by
  have h := groupGo_flatten_perm y 0 ([] : List (α × List Nat))
  simpa [groupIndices, List.range_eq_range'] using h

/-- Train and test contributions of the stratified path jointly
rearrange the full index range. -/
theorem strat_contrib_perm {α : Type} [DecidableEq α] (y : List α) (rn rd : Nat) :
    ((((groupIndices y).map fun p => p.2.take (trainSize rn rd p.2.length)).flatten)
      ++ (((groupIndices y).map fun p => p.2.drop (trainSize rn rd p.2.length)).flatten)).Perm
      (List.range y.length) := by
  have h := flatten_map_append_perm (groupIndices y)
    (fun p => p.2.take (trainSize rn rd p.2.length))
    (fun p => p.2.drop (trainSize rn rd p.2.length))
  have he : ((groupIndices y).map fun p =>
      p.2.take (trainSize rn rd p.2.length) ++ p.2.drop (trainSize rn rd p.2.length))
      = (groupIndices y).map Prod.snd := by
    simp [List.take_append_drop]
  rw [he] at h
  exact h.symm.trans (groupIndices_flatten_perm y)

/-- `split` never fails, and the returned train and test lists together
rearrange the full index range `[0, n)`, for every configuration. -/
theorem split_ok_perm {α : Type} [DecidableEq α] (s : TrainTestSplitter) (g : Nat)
    (y : List α) (rn rd : Nat) (st : Bool) :
    ∃ tr te g2, split s g y rn rd st = Except.ok ((tr, te), g2) ∧
      (tr ++ te).Perm (List.range y.length) := by
  cases st with
  | false =>
    refine ⟨_, _, _, rfl, ?_⟩
    rw [List.take_append_drop]
    exact maybeShuffle_perm _ _ _
  | true =>
    obtain ⟨sh, sd⟩ := s
    cases sh with
    | false =>
      exact ⟨_, _, _, rfl, strat_contrib_perm y rn rd⟩
    | true =>
      exact ⟨_, _, _, rfl,
        ((shuffleList_perm _ _).append (shuffleList_perm _ _)).trans
          (strat_contrib_perm y rn rd)⟩

/-- Contiguous chunks of width `w` followed by the tail from position
`m * w` reassemble the original list. -/
theorem chunk_flatten {α : Type} :
    ∀ (m : Nat) (l : List α) (w : Nat),
      (((List.range m).map fun k => (l.drop (k * w)).take w).flatten)
        ++ l.drop (m * w) = l := by
  intro m
  induction m with
  | zero => intro l w; simp
  | succ m ih =>
    intro l w
    rw [List.range_succ, List.map_append, List.flatten_append]
    have e1 : (([m].map fun k => (l.drop (k * w)).take w).flatten)
        = (l.drop (m * w)).take w := by simp
    rw [e1, List.append_assoc]
    have e3 : l.drop ((m + 1) * w) = (l.drop (m * w)).drop w := by
      rw [List.drop_drop, Nat.succ_mul, Nat.add_comm (m * w) w]
    rw [e3, List.take_append_drop]
    exact ih l w

/-- All `n_folds` non-stratified slices of a list reassemble it. -/
theorem rangeSlice_flatten {α : Type} (K : Nat) (hK : 1 ≤ K) (l : List α) (w : Nat) :
    (((List.range K).map fun k => rangeSlice l K k w).flatten) = l := by
  obtain ⟨m, rfl⟩ : ∃ m, K = m + 1 := ⟨K - 1, by omega⟩
  rw [List.range_succ, List.map_append, List.flatten_append]
  have e1 : ((List.range m).map fun k => rangeSlice l (m + 1) k w)
      = (List.range m).map fun k => (l.drop (k * w)).take w := by
    apply List.map_congr_left
    intro k hk
    have hc : k < m + 1 - 1 := by simpa using List.mem_range.mp hk
    simp only [rangeSlice, if_pos hc]
  have e2 : (([m].map fun k => rangeSlice l (m + 1) k w).flatten) = l.drop (m * w) := by
    simp [rangeSlice]
  rw [e1, e2]
  exact chunk_flatten m l w

/-- Every non-last non-stratified fold has exactly the floor size. -/
theorem rangeSlice_length_of_lt {α : Type} (l : List α) (K k : Nat) (hk : k < K - 1) :
    (rangeSlice l K k (l.length / K)).length = l.length / K := by
  have hmul : K * (l.length / K) ≤ l.length := by
    rw [Nat.mul_comm]
    exact Nat.div_mul_le_self l.length K
  have h1 : (k + 1) * (l.length / K) ≤ l.length := by
    have hk1 : k + 1 ≤ K := by omega
    exact Nat.le_trans (Nat.mul_le_mul_right _ hk1) hmul
  have h2 : l.length / K + k * (l.length / K) ≤ l.length := by
    rw [Nat.add_comm, ← Nat.succ_mul]
    exact h1
  simp only [rangeSlice, if_pos hk, List.length_take, List.length_drop]
  exact Nat.min_eq_left (Nat.le_sub_of_add_le h2)

/-- The last non-stratified fold holds everything from `(K-1) * w` on. -/
theorem rangeSlice_length_last {α : Type} (l : List α) (K w : Nat) :
    (rangeSlice l K (K - 1) w).length = l.length - (K - 1) * w := by
  simp [rangeSlice]

/-- Reading the `k`-th of a family mapped over `range K`. -/
theorem getD_map_range {β : Type} (d : β) (f : Nat → β) (K k : Nat) (hk : k < K) :
    (((List.range K).map f).getD k d) = f k := by
  rw [List.getD_eq_getElem?_getD]
  simp [List.getElem?_map, List.getElem?_range, hk]

/-- All `n_folds` stratified slices of one group reassemble that group. -/
theorem groupSlice_flatten (K : Nat) (hK : 1 ≤ K) (is : List Nat) :
    (((List.range K).map fun k => groupSlice is K k).flatten) = is := by
  obtain ⟨m, rfl⟩ : ∃ m, K = m + 1 := ⟨K - 1, by omega⟩
  rw [List.range_succ, List.map_append, List.flatten_append]
  have e1 : ((List.range m).map fun k => groupSlice is (m + 1) k)
      = (List.range m).map fun k => (is.drop (k * (is.length / (m + 1)))).take
          (is.length / (m + 1)) := by
    apply List.map_congr_left
    intro k hk
    have hc : k ≠ m + 1 - 1 := by
      have := List.mem_range.mp hk
      omega
    simp only [groupSlice, if_pos hc]
  have e2 : (([m].map fun k => groupSlice is (m + 1) k).flatten)
      = is.drop (m * (is.length / (m + 1))) := by
    have hc : ¬ (m ≠ m + 1 - 1) := by omega
    simp only [List.map_cons, List.map_nil, List.flatten_cons, List.flatten_nil,
      List.append_nil, groupSlice, if_neg hc]
  rw [e1, e2]
  exact chunk_flatten m is (is.length / (m + 1))

/-- Every non-last stratified slice of a group has the floor size. -/
theorem groupSlice_length_of_lt (is : List Nat) (K k : Nat) (hk : k < K - 1) :
    (groupSlice is K k).length = is.length / K := by
  have hmul : K * (is.length / K) ≤ is.length := by
    rw [Nat.mul_comm]
    exact Nat.div_mul_le_self is.length K
  have h1 : (k + 1) * (is.length / K) ≤ is.length := by
    have hk1 : k + 1 ≤ K := by omega
    exact Nat.le_trans (Nat.mul_le_mul_right _ hk1) hmul
  have h2 : is.length / K + k * (is.length / K) ≤ is.length := by
    rw [Nat.add_comm, ← Nat.succ_mul]
    exact h1
  have hc : k ≠ K - 1 := by omega
  simp only [groupSlice, if_pos hc, List.length_take, List.length_drop]
  exact Nat.min_eq_left (Nat.le_sub_of_add_le h2)

/-- The last stratified slice of a group takes everything that remains. -/
theorem groupSlice_length_last (is : List Nat) (K : Nat) :
    (groupSlice is K (K - 1)).length = is.length - (K - 1) * (is.length / K) := by
  have hc : ¬ (K - 1 ≠ K - 1) := by omega
  simp only [groupSlice, if_neg hc, List.length_drop]

/-- `mapRng` preserves the length of the driving list. -/
theorem mapRng_length {α β : Type} (f : α → Nat → β × Nat) :
    ∀ (l : List α) (g : Nat), ((mapRng f l g).1).length = l.length := by
  intro l
  induction l with
  | nil => intro g; simp [mapRng]
  | cons a as ih => intro g; simp [mapRng, ih]

/-- When every step permutes a reference value, the threaded map is
pointwise a permutation of the reference map. -/
theorem mapRng_forall2 {α β : Type} (f : α → Nat → List β × Nat) (h : α → List β)
    (hf : ∀ a g, ((f a g).1).Perm (h a)) :
    ∀ (l : List α) (g : Nat),
      List.Forall₂ (fun b a => b.Perm (h a)) ((mapRng f l g).1) l := by
  intro l
  induction l with
  | nil => intro g; simp [mapRng]
  | cons a as ih =>
    intro g
    simp only [mapRng]
    exact List.Forall₂.cons (hf a g) (ih _)

/-- Pointwise permutations concatenate to a permutation. -/
theorem flatten_perm_of_forall2 {α β : Type} (h : β → List α) :
    ∀ {l1 : List (List α)} {l2 : List β},
      List.Forall₂ (fun b a => b.Perm (h a)) l1 l2 →
      (l1.flatten).Perm ((l2.map h).flatten) := by
  intro l1 l2 hf
  induction hf with
  | nil => simp
  | cons hab _ ih =>
    simpa using List.Perm.append hab ih

/-- Exchanging the two nested concatenations: summing slices per fold and
then over folds rearranges summing per group and then over groups. -/
theorem flatten_swap_perm {γ : Type} :
    ∀ (gs : List (List Nat)) (ks : List γ) (f : List Nat → γ → List Nat),
      ((ks.map fun k => (gs.map fun is => f is k).flatten).flatten).Perm
        ((gs.map fun is => (ks.map fun k => f is k).flatten).flatten) := by
  intro gs
  induction gs with
  | nil =>
    intro ks f
    simp
  | cons is0 gs ih =>
    intro ks f
    have h1 := flatten_map_append_perm ks (fun k => f is0 k)
      (fun k => (gs.map fun is => f is k).flatten)
    have h2 := (ih ks f).append_left ((ks.map fun k => f is0 k).flatten)
    simp only [List.map_cons, List.flatten_cons]
    exact h1.trans h2

/-- A label absent from the keys gets a fresh group at the end. -/
theorem addToGroups_not_mem {α : Type} [DecidableEq α] :
    ∀ (gs : List (α × List Nat)) (lab : α) (i : Nat),
      lab ∉ gs.map Prod.fst → addToGroups gs lab i = gs ++ [(lab, [i])] := by
  intro gs
  induction gs with
  | nil => intro lab i _; rfl
  | cons p gs ih =>
    intro lab i h
    obtain ⟨l, is⟩ := p
    have hne : l ≠ lab := by
      intro hcontra
      exact h (by simp [hcontra])
    have hrest : lab ∉ gs.map Prod.fst := by
      intro hcontra
      exact h (by simp [hcontra])
    simp [addToGroups, hne, ih lab i hrest]

/-- A label already present gets `i` appended to its (unique first)
group, everything else unchanged. -/
theorem addToGroups_mem_split {α : Type} [DecidableEq α] :
    ∀ (gs : List (α × List Nat)) (lab : α) (i : Nat),
      lab ∈ gs.map Prod.fst →
      ∃ gs1 is gs2, gs = gs1 ++ (lab, is) :: gs2 ∧ lab ∉ gs1.map Prod.fst ∧
        addToGroups gs lab i = gs1 ++ (lab, is ++ [i]) :: gs2 := by
  intro gs
  induction gs with
  | nil => intro lab i h; simp at h
  | cons p gs ih =>
    intro lab i h
    obtain ⟨l, is0⟩ := p
    by_cases hl : l = lab
    · subst hl
      exact ⟨[], is0, gs, by simp, by simp, by simp [addToGroups]⟩
    · have hrest : lab ∈ gs.map Prod.fst := by
        rcases List.mem_map.mp h with ⟨q, hq, hfst⟩
        rcases List.mem_cons.mp hq with rfl | hq2
        · exact absurd hfst hl
        · exact List.mem_map.mpr ⟨q, hq2, hfst⟩
      obtain ⟨gs1, is, gs2, hgs, hnm, ha⟩ := ih lab i hrest
      refine ⟨(l, is0) :: gs1, is, gs2, by rw [hgs]; rfl, ?_, ?_⟩
      · intro hcontra
        rcases List.mem_map.mp hcontra with ⟨q, hq, hfst⟩
        rcases List.mem_cons.mp hq with rfl | hq2
        · exact hl hfst
        · exact hnm (List.mem_map.mpr ⟨q, hq2, hfst⟩)
      · simp only [addToGroups, if_neg hl, ha]
        rfl

/-- One grouping step preserves the invariant. -/
theorem groupsOk_add {α : Type} [DecidableEq α] (y : List α) (i : Nat)
    (gs : List (α × List Nat)) (lab : α) (hYi : y[i]? = some lab)
    (h : GroupsOk y i gs) : GroupsOk y (i + 1) (addToGroups gs lab i) := by
  obtain ⟨hnd, hcomp, hent⟩ := h
  by_cases hm : lab ∈ gs.map Prod.fst
  · obtain ⟨gs1, is, gs2, rfl, hnm1, ha⟩ := addToGroups_mem_split gs lab i hm
    rw [ha]
    rw [List.map_append, List.map_cons] at hnd
    obtain ⟨hnd1, hnd2, hdisj⟩ := List.nodup_append.mp hnd
    have hnm2 : lab ∉ gs2.map Prod.fst := (List.nodup_cons.mp hnd2).1
    obtain ⟨hsort0, hiff0⟩ := hent (lab, is) (by simp)
    refine ⟨?_, ?_, ?_⟩
    · rw [List.map_append, List.map_cons]
      rw [List.nodup_append]
      exact ⟨hnd1, hnd2, hdisj⟩
    · intro j hj
      rcases Nat.lt_succ_iff_lt_or_eq.mp hj with hj2 | rfl
      · obtain ⟨p, hp, hjp⟩ := hcomp j hj2
        rcases List.mem_append.mp hp with hp1 | hp2
        · exact ⟨p, List.mem_append_left _ hp1, hjp⟩
        · rcases List.mem_cons.mp hp2 with rfl | hp3
          · exact ⟨(lab, is ++ [i]), by simp, List.mem_append_left _ (by simpa using hjp)⟩
          · exact ⟨p, by simp [hp3], hjp⟩
      · exact ⟨(lab, is ++ [j]), by simp, by simp⟩
    · intro p hp
      rcases List.mem_append.mp hp with hp1 | hp2
      · have hold := hent p (List.mem_append_left _ hp1)
        have hplab : p.1 ≠ lab := by
          intro hcontra
          exact hnm1 (List.mem_map.mpr ⟨p, hp1, hcontra⟩)
        refine ⟨hold.1, fun j => ?_⟩
        rw [hold.2 j]
        constructor
        · rintro ⟨hj, hy⟩; exact ⟨by omega, hy⟩
        · rintro ⟨hj, hy⟩
          rcases Nat.lt_succ_iff_lt_or_eq.mp hj with hj2 | rfl
          · exact ⟨hj2, hy⟩
          · rw [hYi] at hy
            exact absurd (Option.some_inj.mp hy).symm hplab
      · rcases List.mem_cons.mp hp2 with rfl | hp3
        · constructor
          · refine List.pairwise_append.mpr ⟨hsort0, by simp, ?_⟩
            intro a hmem b hb
            rcases List.mem_singleton.mp hb with rfl
            exact ((hiff0 a).mp hmem).1
          · intro j
            simp only [List.mem_append, List.mem_singleton, hiff0 j]
            constructor
            · rintro (⟨hj, hy⟩ | rfl)
              · exact ⟨by omega, hy⟩
              · exact ⟨by omega, hYi⟩
            · rintro ⟨hj, hy⟩
              rcases Nat.lt_succ_iff_lt_or_eq.mp hj with hj2 | rfl
              · exact Or.inl ⟨hj2, hy⟩
              · exact Or.inr rfl
        · have hold := hent p (by simp [hp3])
          have hplab : p.1 ≠ lab := by
            intro hcontra
            exact hnm2 (List.mem_map.mpr ⟨p, hp3, hcontra⟩)
          refine ⟨hold.1, fun j => ?_⟩
          rw [hold.2 j]
          constructor
          · rintro ⟨hj, hy⟩; exact ⟨by omega, hy⟩
          · rintro ⟨hj, hy⟩
            rcases Nat.lt_succ_iff_lt_or_eq.mp hj with hj2 | rfl
            · exact ⟨hj2, hy⟩
            · rw [hYi] at hy
              exact absurd (Option.some_inj.mp hy).symm hplab
  · rw [addToGroups_not_mem gs lab i hm]
    refine ⟨?_, ?_, ?_⟩
    · rw [List.map_append, List.nodup_append]
      refine ⟨hnd, by simp, ?_⟩
      intro a ha hb
      simp only [List.map_cons, List.map_nil, List.mem_singleton] at hb
      subst hb
      exact hm ha
    · intro j hj
      rcases Nat.lt_succ_iff_lt_or_eq.mp hj with hj2 | rfl
      · obtain ⟨p, hp, hjp⟩ := hcomp j hj2
        exact ⟨p, List.mem_append_left _ hp, hjp⟩
      · exact ⟨(lab, [j]), by simp, by simp⟩
    · intro p hp
      rcases List.mem_append.mp hp with hp1 | hp2
      · have hold := hent p hp1
        have hplab : p.1 ≠ lab := by
          intro hcontra
          exact hm (List.mem_map.mpr ⟨p, hp1, hcontra⟩)
        refine ⟨hold.1, fun j => ?_⟩
        rw [hold.2 j]
        constructor
        · rintro ⟨hj, hy⟩; exact ⟨by omega, hy⟩
        · rintro ⟨hj, hy⟩
          rcases Nat.lt_succ_iff_lt_or_eq.mp hj with hj2 | rfl
          · exact ⟨hj2, hy⟩
          · rw [hYi] at hy
            exact absurd (Option.some_inj.mp hy).symm hplab
      · rcases List.mem_singleton.mp hp2 with rfl
        refine ⟨by simp, fun j => ?_⟩
        simp only [List.mem_singleton]
        constructor
        · rintro rfl
          exact ⟨by omega, hYi⟩
        · rintro ⟨hj, hy⟩
          rcases Nat.lt_succ_iff_lt_or_eq.mp hj with hj2 | rfl
          · obtain ⟨q, hq, hjq⟩ := hcomp j hj2
            have := ((hent q hq).2 j).mp hjq
            have hq1 : q.1 = lab := by
              rw [this.2] at hy
              exact Option.some_inj.mp hy
            exact absurd (List.mem_map.mpr ⟨q, hq, hq1⟩) hm
          · rfl

/-- Running the grouping loop to the end keeps the invariant, reaching
the full label list. -/
theorem groupGo_groupsOk {α : Type} [DecidableEq α] (y : List α) :
    ∀ (rest : List α) (i : Nat) (gs : List (α × List Nat)),
      rest = y.drop i → GroupsOk y i gs →
      GroupsOk y y.length (groupGo rest i gs) := by
  intro rest
  induction rest with
  | nil =>
    intro i gs hdrop h
    have hlen : y.length ≤ i := by
      have := congrArg List.length hdrop
      simp [List.length_drop] at this
      omega
    obtain ⟨hnd, hcomp, hent⟩ := h
    refine ⟨hnd, fun j hj => hcomp j (by omega), fun p hp => ?_⟩
    obtain ⟨hs, hiff⟩ := hent p hp
    refine ⟨hs, fun j => ?_⟩
    rw [hiff j]
    constructor
    · rintro ⟨hj, hy⟩
      have hjl : j < y.length := by
        rcases List.getElem?_eq_some.mp hy with ⟨hlt, _⟩
        exact hlt
      exact ⟨hjl, hy⟩
    · rintro ⟨hj, hy⟩
      exact ⟨by omega, hy⟩
  | cons lab rest ih =>
    intro i gs hdrop h
    have hYi : y[i]? = some lab := by
      have h0 : (y.drop i)[0]? = some lab := by rw [← hdrop]; simp
      rw [List.getElem?_drop] at h0
      simpa using h0
    have hdrop1 : rest = y.drop (i + 1) := by
      have h1 := congrArg List.tail hdrop
      simp only [List.tail_cons] at h1
      rw [h1, ← List.drop_one, List.drop_drop, Nat.add_comm]
    exact ih (i + 1) (addToGroups gs lab i) hdrop1 (groupsOk_add y i gs lab hYi h)

/-- `labels_indices` characterised: distinct keys, and each group is the
ascending list of exactly the indices carrying its label. -/
theorem groupIndices_char {α : Type} [DecidableEq α] (y : List α) :
    (((groupIndices y).map Prod.fst).Nodup) ∧
    (∀ j, j < y.length → ∃ p, p ∈ groupIndices y ∧ j ∈ p.2) ∧
    (∀ p, p ∈ groupIndices y →
      p.2.Sorted (· < ·) ∧ ∀ j, j ∈ p.2 ↔ y[j]? = some p.1) := by
  have h0 : GroupsOk y 0 ([] : List (α × List Nat)) := by
    refine ⟨by simp, by omega, by simp⟩
  have h := groupGo_groupsOk y y 0 [] (by simp) h0
  obtain ⟨hnd, hcomp, hent⟩ := h
  refine ⟨hnd, hcomp, fun p hp => ?_⟩
  obtain ⟨hs, hiff⟩ := hent p hp
  refine ⟨hs, fun j => ?_⟩
  rw [hiff j]
  constructor
  · rintro ⟨_, hy⟩; exact hy
  · intro hy
    rcases List.getElem?_eq_some.mp hy with ⟨hlt, _⟩
    exact ⟨hlt, hy⟩

/-- Two groups sharing a label are the same group. -/
theorem groupIndices_label_inj {α : Type} [DecidableEq α] (y : List α)
    (p q : α × List Nat) (hp : p ∈ groupIndices y) (hq : q ∈ groupIndices y)
    (h : p.1 = q.1) : p = q :=
  List.inj_on_of_nodup_map (groupIndices_char y).1 hp hq h

/-- Pointwise reading of a `Forall₂` relation through `getD`. -/
theorem forall2_getD {α β : Type} {R : β → α → Prop} (d1 : β) (d2 : α) :
    ∀ {l1 : List β} {l2 : List α}, List.Forall₂ R l1 l2 →
      ∀ k, k < l1.length → R (l1.getD k d1) (l2.getD k d2) := by
  intro l1 l2 h
  induction h with
  | nil => intro k hk; simp at hk
  | cons hr _ ih =>
    intro k hk
    cases k with
    | zero => simpa using hr
    | succ k2 =>
      simp only [List.getD_cons_succ]
      exact ih k2 (by simpa using hk)

/-- `range K` read at a position below `K`. -/
theorem range_getD (K k : Nat) (hk : k < K) : (List.range K).getD k 0 = k := by
  rw [List.getD_eq_getElem?_getD]
  simp [List.getElem?_range, hk]

/-- A stratified slice only holds indices of its own group. -/
theorem groupSlice_subset (is : List Nat) (K k : Nat) :
    groupSlice is K k ⊆ is := by
  by_cases hc : k ≠ K - 1
  · simp only [groupSlice, if_pos hc]
    exact (List.take_subset _ _).trans (List.drop_subset _ _)
  · simp only [groupSlice, if_neg hc]
    exact List.drop_subset _ _

/-- Shape of the stratified `make_k_folds` run: it always succeeds, yields
`n_folds` folds, and fold `k` is a permutation of the concatenation of the
`k`-th slices of all groups. -/
theorem makeKFolds_strat_shape {α : Type} [DecidableEq α] (s : TrainTestSplitter)
    (g : Nat) (y : List α) (K : Nat) :
    ∃ fs g2, makeKFolds s g y K true = Except.ok (fs, g2) ∧
      fs.length = K ∧
      List.Forall₂ (fun b k => b.Perm
        ((((groupIndices y).map Prod.snd).map fun is => groupSlice is K k).flatten))
        fs (List.range K) := by
  refine ⟨_, _, rfl, ?_, ?_⟩
  · rw [mapRng_length, List.length_range]
  · exact mapRng_forall2 _
      (fun k => ((((groupIndices y).map Prod.snd).map fun is => groupSlice is K k).flatten))
      (fun k gr => maybeShuffle_perm s.shuffle _ gr)
      (List.range K) (flushRng s g)

/-- Python's `int(train_ratio * m)` as embedded (`rn * m / rd` in `Nat`)
is exactly the rational floor `⌊(rn / rd) * m⌋`. -/
theorem trainSize_eq_floor (rn rd m : Nat) (hrd : rd ≠ 0) :
    (trainSize rn rd m : Int) = ⌊((rn : ℚ) / (rd : ℚ)) * (m : ℚ)⌋ := by
  have he : ((rn : ℚ) / (rd : ℚ)) * (m : ℚ) = ((rn * m : ℕ) : ℚ) / ((rd : ℕ) : ℚ) := by
    push_cast
    ring
  rw [he, Rat.floor_natCast_div_natCast, trainSize]
  exact (Int.ofNat_div _ _).symm

/-- Reseeding twice is the same as reseeding once. -/
theorem flushRng_idem (s : TrainTestSplitter) (g : Nat) :
    flushRng s (flushRng s g) = flushRng s g := by
  cases h : s.random_seed <;> simp [flushRng, h]

/-- `make_k_folds` only consumes the generator through `_flush_rng`, so a
pre-flushed state gives the same run. -/
theorem makeKFolds_flush {α : Type} [DecidableEq α] (s : TrainTestSplitter)
    (g : Nat) (y : List α) (K : Nat) (st : Bool) :
    makeKFolds s (flushRng s g) y K st = makeKFolds s g y K st := by
  simp only [makeKFolds, flushRng_idem]

/-- `np.concatenate` succeeds on any nonempty list of arrays. -/
theorem npConcat_ok (ls : List (List Nat)) (h : ls ≠ []) :
    npConcat ls = Except.ok ls.flatten := by
  cases ls with
  | nil => exact absurd rfl h
  | cons a as => rfl

/-- `mapExcept` over steps that all succeed is the plain map. -/
theorem mapExcept_ok {α β : Type} (f : α → Except String β) (h : α → β) :
    ∀ (l : List α), (∀ a, a ∈ l → f a = Except.ok (h a)) →
      mapExcept f l = Except.ok (l.map h) := by
  intro l
  induction l with
  | nil => intro _; rfl
  | cons a as ih =>
    intro hall
    rw [List.map_cons]
    simp only [mapExcept]
    rw [hall a (by simp), ih (fun b hb => hall b (by simp [hb]))]

/-- With at least two folds, `k_fold_split` succeeds and yields, for each
`i`, the concatenation of the other folds paired with fold `i`. -/
theorem kFoldSplit_ok {α : Type} [DecidableEq α] (s : TrainTestSplitter)
    (g : Nat) (y : List α) (K : Nat) (st : Bool) (folds : List (List Nat))
    (g2 : Nat) (heq : makeKFolds s g y K st = Except.ok (folds, g2))
    (hlen : folds.length = K) (hK : 2 ≤ K) :
    kFoldSplit s g y K st = Except.ok ((List.range K).map (fun i =>
      ((folds.take i ++ folds.drop (i + 1)).flatten, folds.getD i [])), g2) := by
  have hstep : ∀ i, i ∈ List.range K →
      (fun i => match npConcat (folds.take i ++ folds.drop (i + 1)) with
        | Except.error e => Except.error e
        | Except.ok tr => Except.ok (tr, folds.getD i [])) i
      = Except.ok (((folds.take i ++ folds.drop (i + 1)).flatten, folds.getD i [])) := by
    intro i hi
    have hiK : i < K := List.mem_range.mp hi
    have hne : folds.take i ++ folds.drop (i + 1) ≠ [] := by
      intro hcontra
      have := congrArg List.length hcontra
      simp only [List.length_append, List.length_take, List.length_drop,
        List.length_nil, hlen] at this
      omega
    simp only [npConcat_ok _ hne]
  simp only [kFoldSplit, makeKFolds_flush, heq]
  rw [mapExcept_ok _ (fun i => ((folds.take i ++ folds.drop (i + 1)).flatten,
    folds.getD i [])) (List.range K) hstep]

/-- Reading an existing position of a list through `getD`. -/
theorem getD_eq_getElem_of_lt {β : Type} (l : List β) (d : β) (i : Nat)
    (h : i < l.length) : l.getD i d = l[i] := by
  rw [List.getD_eq_getElem?_getD, List.getElem?_eq_getElem h]
  rfl

/-- Removing fold `i` and re-adding it rearranges the whole flattening. -/
theorem flatten_except_perm (folds : List (List Nat)) (i : Nat)
    (h : i < folds.length) :
    ((folds.take i ++ folds.drop (i + 1)).flatten ++ folds.getD i []).Perm
      folds.flatten := by
  have hsplit : folds = folds.take i ++ (folds.getD i [] :: folds.drop (i + 1)) := by
    rw [getD_eq_getElem_of_lt _ _ _ h, ← List.drop_eq_getElem_cons h,
      List.take_append_drop]
  have e1 : (folds.take i ++ folds.drop (i + 1)).flatten
      = (folds.take i).flatten ++ (folds.drop (i + 1)).flatten := by
    rw [List.flatten_append]
  have e2 : folds.flatten
      = (folds.take i).flatten ++ (folds.getD i [] ++ (folds.drop (i + 1)).flatten) := by
    conv in folds.flatten => rw [hsplit]
    rw [List.flatten_append, List.flatten_cons]
  rw [e1, e2, List.append_assoc]
  refine List.Perm.append_left _ ?_
  exact List.perm_append_comm

/-- C1: for every non-empty label list of length `n` and every ratio
`rn / rd` with `0 < rn / rd < 1`, `split` returns a train/test pair whose
lengths sum to `n`, whose members are disjoint, and whose union is
exactly `{0, ..., n-1}`, for both `stratify` settings and both `shuffle`
settings. -/
theorem C1_split_partition {α : Type} [DecidableEq α] (s : TrainTestSplitter)
    (g : Nat) (y : List α) (rn rd : Nat) (st : Bool)
    (hy : y ≠ []) (h0 : 0 < rn) (h1 : rn < rd) :
    ∃ tr te g2, split s g y rn rd st = Except.ok ((tr, te), g2) ∧
      tr.length + te.length = y.length ∧
      (∀ i, (i ∈ tr ∨ i ∈ te) ↔ i < y.length) ∧
      (∀ i, ¬(i ∈ tr ∧ i ∈ te)) := by
  obtain ⟨tr, te, g2, heq, hperm⟩ := split_ok_perm s g y rn rd st
  refine ⟨tr, te, g2, heq, ?_, ?_, ?_⟩
  · have := hperm.length_eq
    simpa [List.length_append] using this
  · intro i
    have := @List.Perm.mem_iff Nat i _ _ hperm
    simpa [List.mem_append, List.mem_range] using this
  · intro i hi
    have hnd : (tr ++ te).Nodup := hperm.nodup_iff.mpr (List.nodup_range _)
    rw [List.nodup_append] at hnd
    exact hnd.2.2 hi.1 hi.2

/-- Witness for C1 at a concrete input. -/
theorem C1_split_partition_witness :
    ([0, 0, 1] : List Nat) ≠ [] ∧ 0 < 1 ∧ 1 < 2 ∧
    (∃ tr te g2,
      split (TrainTestSplitter.mk false none) 0 ([0, 0, 1] : List Nat) 1 2 false
        = Except.ok ((tr, te), g2) ∧
      tr.length + te.length = 3 ∧
      (∀ i, (i ∈ tr ∨ i ∈ te) ↔ i < 3) ∧
      (∀ i, ¬(i ∈ tr ∧ i ∈ te))) :=
  ⟨by decide, by decide, by decide,
    C1_split_partition (TrainTestSplitter.mk false none) 0 ([0, 0, 1] : List Nat)
      1 2 false (by decide) (by decide) (by decide)⟩

/-- C4: seeding determinism.  Two separately constructed instances with
the same (present) seed and the same `shuffle` flag return identical
index sequences from `split`, `make_k_folds` and `k_fold_split` on
identical inputs, independently of their running generator states; and
with `shuffle = false` the output ignores the seed entirely and, on the
non-stratified path, is the ascending cut of `range n`. -/
theorem C4_seed_determinism {α : Type} [DecidableEq α] (sd : Nat) (sh : Bool)
    (g1 g2 : Nat) (y : List α) (rn rd K : Nat) (st : Bool) :
    ((split (TrainTestSplitter.mk sh (some sd)) g1 y rn rd st).map Prod.fst
      = (split (TrainTestSplitter.mk sh (some sd)) g2 y rn rd st).map Prod.fst) ∧
    ((makeKFolds (TrainTestSplitter.mk sh (some sd)) g1 y K st).map Prod.fst
      = (makeKFolds (TrainTestSplitter.mk sh (some sd)) g2 y K st).map Prod.fst) ∧
    ((kFoldSplit (TrainTestSplitter.mk sh (some sd)) g1 y K st).map Prod.fst
      = (kFoldSplit (TrainTestSplitter.mk sh (some sd)) g2 y K st).map Prod.fst) ∧
    (∀ sd1 sd2 h1 h2,
      (split (TrainTestSplitter.mk false sd1) h1 y rn rd st).map Prod.fst
        = (split (TrainTestSplitter.mk false sd2) h2 y rn rd st).map Prod.fst) ∧
    (∀ sd0 h0,
      (split (TrainTestSplitter.mk false sd0) h0 y rn rd false).map Prod.fst
        = Except.ok ((List.range y.length).take (trainSize rn rd y.length),
            (List.range y.length).drop (trainSize rn rd y.length))) := by
  refine ⟨rfl, rfl, rfl, ?_, ?_⟩
  · intro sd1 sd2 h1 h2
    cases st with
    | false => rfl
    | true => rfl
  · intro sd0 h0
    rfl

/-- C2 counterexample: no fail-fast validation exists.  `split` with
empty labels and `split` with `train_ratio = 2` both return `Except.ok`,
and `make_k_folds` with `n_folds = 1` yields a single total fold, also
without error — where the claim demands an InvalidArgument-style
failure. -/
theorem C2_counterexample :
    (split (TrainTestSplitter.mk false none) 0 ([] : List Nat) 4 5 false
        = Except.ok (([], []), 0) ∧
      ∀ e, split (TrainTestSplitter.mk false none) 0 ([] : List Nat) 4 5 false
        ≠ Except.error e) ∧
    (split (TrainTestSplitter.mk false none) 0 ([0, 1] : List Nat) 2 1 false
        = Except.ok (([0, 1], []), 0) ∧
      ∀ e, split (TrainTestSplitter.mk false none) 0 ([0, 1] : List Nat) 2 1 false
        ≠ Except.error e) ∧
    (makeKFolds (TrainTestSplitter.mk false none) 0 ([0, 1, 2] : List Nat) 1 false
        = Except.ok ([[0, 1, 2]], 0) ∧
      ∀ e, makeKFolds (TrainTestSplitter.mk false none) 0 ([0, 1, 2] : List Nat) 1 false
        ≠ Except.error e) := by
  refine ⟨⟨rfl, ?_⟩, ⟨rfl, ?_⟩, ⟨rfl, ?_⟩⟩ <;> intro e h <;> exact Except.noConfusion h

/-- C2 as amended: the operations perform no argument validation.
Degenerate inputs flow through: empty labels give an empty pair,
`train_ratio = 2` puts every index in train, `n_folds = 1` yields one
total fold; the only failures are the `ZeroDivisionError` of the
non-stratified path at `n_folds = 0` and the numpy `ValueError` that
`k_fold_split` hits at `n_folds = 1`, neither an up-front argument
check. -/
theorem C2_no_validation :
    split (TrainTestSplitter.mk false none) 0 ([] : List Nat) 4 5 false
      = Except.ok (([], []), 0) ∧
    split (TrainTestSplitter.mk false none) 0 ([] : List Nat) 4 5 true
      = Except.ok (([], []), 0) ∧
    split (TrainTestSplitter.mk false none) 0 ([0, 1] : List Nat) 2 1 false
      = Except.ok (([0, 1], []), 0) ∧
    makeKFolds (TrainTestSplitter.mk false none) 0 ([0, 1, 2] : List Nat) 1 false
      = Except.ok ([[0, 1, 2]], 0) ∧
    makeKFolds (TrainTestSplitter.mk false none) 0 ([0, 1, 2] : List Nat) 0 false
      = Except.error ("ZeroDivisionError: integer division or modulo by zero") ∧
    kFoldSplit (TrainTestSplitter.mk false none) 0 ([0, 1, 2] : List Nat) 1 false
      = Except.error ("ValueError: need at least one array to concatenate") :=
  ⟨rfl, rfl, rfl, rfl, rfl, rfl⟩

/-- C3 counterexample: with 9 labels and 5 folds the non-stratified fold
sizes are 1, 1, 1, 1, 5 — two folds whose sizes differ by 4, not at most
1. -/
theorem C3_counterexample :
    ∃ fs g2,
      makeKFolds (TrainTestSplitter.mk false none) 0 (List.replicate 9 (0 : Nat)) 5 false
        = Except.ok (fs, g2) ∧
      ∃ a, a ∈ fs ∧ ∃ b, b ∈ fs ∧ b.length + 1 < a.length := by
  refine ⟨[[0], [1], [2], [3], [4, 5, 6, 7, 8]], 0, rfl,
    [4, 5, 6, 7, 8], by decide, [0], by decide, by decide⟩

/-- Shape of the non-stratified `make_k_folds` run: the slice family over
the (possibly shuffled) index list, which is a permutation of `range n`
and is `range n` itself when `shuffle` is off. -/
theorem makeKFolds_nonstrat {α : Type} [DecidableEq α] (s : TrainTestSplitter)
    (g : Nat) (y : List α) (K : Nat) (hK0 : K ≠ 0) :
    ∃ ind g1,
      makeKFolds s g y K false = Except.ok
        ((List.range K).map (fun k => rangeSlice ind K k (y.length / K)), g1) ∧
      ind.Perm (List.range y.length) ∧
      (s.shuffle = false → ind = List.range y.length) ∧
      ind.length = y.length := by
  refine ⟨(maybeShuffle s.shuffle (List.range y.length) (flushRng s g)).1,
    (maybeShuffle s.shuffle (List.range y.length) (flushRng s g)).2, ?_, ?_, ?_, ?_⟩
  · simp [makeKFolds, hK0]
  · exact maybeShuffle_perm _ _ _
  · intro hsh
    rw [hsh, maybeShuffle_false]
  · exact ((maybeShuffle_perm _ _ _).length_eq).trans (List.length_range _)

/-- Both `make_k_folds` paths succeed for `n_folds ≠ 0` and produce
exactly `n_folds` folds that jointly rearrange the index range. -/
theorem makeKFolds_ok_perm {α : Type} [DecidableEq α] (s : TrainTestSplitter)
    (g : Nat) (y : List α) (K : Nat) (st : Bool) (hK0 : K ≠ 0) :
    ∃ folds g2, makeKFolds s g y K st = Except.ok (folds, g2) ∧
      folds.length = K ∧ (folds.flatten).Perm (List.range y.length) := by
  cases st with
  | false =>
    obtain ⟨ind, g1, heq, hperm, _, _⟩ := makeKFolds_nonstrat s g y K hK0
    refine ⟨_, g1, heq, by simp, ?_⟩
    rw [rangeSlice_flatten K (by omega) ind (y.length / K)]
    exact hperm
  | true =>
    refine ⟨_, _, rfl, ?_, ?_⟩
    · rw [mapRng_length, List.length_range]
    · have hf2 := mapRng_forall2 _
        (fun k => ((((groupIndices y).map Prod.snd).map fun is => groupSlice is K k).flatten))
        (fun k gr => maybeShuffle_perm s.shuffle _ gr) (List.range K)
        (flushRng s g)
      have h1 := flatten_perm_of_forall2 _ hf2
      have h2 := flatten_swap_perm ((groupIndices y).map Prod.snd) (List.range K)
        (fun is k => groupSlice is K k)
      have h4 : ∀ is ∈ (groupIndices y).map Prod.snd,
          ((List.range K).map fun k => groupSlice is K k).flatten
            = (fun is : List Nat => is) is :=
        fun is _ => groupSlice_flatten K (by omega) is
      have e3 : (((groupIndices y).map Prod.snd).map fun is =>
          ((List.range K).map fun k => groupSlice is K k).flatten)
          = ((groupIndices y).map Prod.snd) := by
        rw [List.map_congr_left h4]
        exact List.map_id _
      rw [e3] at h2
      exact (h1.trans h2).trans (groupIndices_flatten_perm y)

/-- C3 (amended): for non-empty labels and `n_folds > 1` the
non-stratified `make_k_folds` yields exactly `n_folds` groups, the first
`n_folds - 1` of size `floor(n / n_folds)` and the last of size
`n - (n_folds - 1) * floor(n / n_folds)` (so sizes may differ by up to
`n mod n_folds`, not by at most 1), and the groups cover
`{0, ..., n-1}` with no index in more than one group. -/
theorem C3_fold_sizes {α : Type} [DecidableEq α] (s : TrainTestSplitter)
    (g : Nat) (y : List α) (K : Nat) (hy : y ≠ []) (hK : 1 < K) :
    ∃ fs g2, makeKFolds s g y K false = Except.ok (fs, g2) ∧
      fs.length = K ∧
      (∀ k, k < K - 1 → (fs.getD k []).length = y.length / K) ∧
      (fs.getD (K - 1) []).length = y.length - (K - 1) * (y.length / K) ∧
      (∀ i, (∃ f, f ∈ fs ∧ i ∈ f) ↔ i < y.length) ∧
      fs.Pairwise List.Disjoint := by
  obtain ⟨ind, g1, heq, hperm, hsh, hlen⟩ :=
    makeKFolds_nonstrat s g y K (by omega)
  have hflat : (((List.range K).map fun k =>
      rangeSlice ind K k (y.length / K)).flatten) = ind :=
    rangeSlice_flatten K (by omega) ind (y.length / K)
  refine ⟨_, g1, heq, ?_, ?_, ?_, ?_, ?_⟩
  · simp
  · intro k hk
    rw [getD_map_range [] _ K k (by omega)]
    rw [← hlen]
    exact rangeSlice_length_of_lt ind K k hk
  · rw [getD_map_range [] _ K (K - 1) (by omega)]
    rw [rangeSlice_length_last, hlen]
  · intro i
    have hm : (i ∈ ((List.range K).map fun k =>
        rangeSlice ind K k (y.length / K)).flatten) ↔ i < y.length := by
      rw [hflat, hperm.mem_iff, List.mem_range]
    rw [← hm, List.mem_flatten]
  · have hnd : (((List.range K).map fun k =>
        rangeSlice ind K k (y.length / K)).flatten).Nodup := by
      rw [hflat]
      exact hperm.nodup_iff.mpr (List.nodup_range _)
    exact (List.nodup_flatten.mp hnd).2

/-- Witness for C3 (amended) at the counterexample input. -/
theorem C3_fold_sizes_witness :
    (List.replicate 9 (0 : Nat)) ≠ [] ∧ 1 < 5 ∧
    (∃ fs g2,
      makeKFolds (TrainTestSplitter.mk false none) 0 (List.replicate 9 (0 : Nat)) 5 false
        = Except.ok (fs, g2) ∧
      fs.length = 5 ∧
      (∀ k, k < 5 - 1 → (fs.getD k []).length = 9 / 5) ∧
      (fs.getD (5 - 1) []).length = 9 - (5 - 1) * (9 / 5) ∧
      (∀ i, (∃ f, f ∈ fs ∧ i ∈ f) ↔ i < 9) ∧
      fs.Pairwise List.Disjoint) := by
  refine ⟨by decide, by decide, ?_⟩
  have h := C3_fold_sizes (TrainTestSplitter.mk false none) 0
    (List.replicate 9 (0 : Nat)) 5 (by decide) (by decide)
  simpa using h

/-- C7: the non-stratified `make_k_folds` permutes the full index range
once (identity when `shuffle` is off), then cuts it into `n_folds`
contiguous slices of size `floor(n / n_folds)`, the final fold absorbing
the remainder for a size of `n - (n_folds - 1) * floor(n / n_folds)`; on
`labels = range 10`, `n_folds = 5`, no shuffle, the folds are
`[0,1], [2,3], [4,5], [6,7], [8,9]`. -/
theorem C7_nonstrat_contiguous {α : Type} [DecidableEq α] (s : TrainTestSplitter)
    (g : Nat) (y : List α) (K : Nat) (hy : y ≠ []) (hK : 1 < K) :
    (∃ ind g1,
      makeKFolds s g y K false = Except.ok
        ((List.range K).map (fun k => rangeSlice ind K k (y.length / K)), g1) ∧
      ind.Perm (List.range y.length) ∧
      (s.shuffle = false → ind = List.range y.length) ∧
      (∀ k, k < K - 1 → rangeSlice ind K k (y.length / K)
        = (ind.drop (k * (y.length / K))).take (y.length / K)) ∧
      rangeSlice ind K (K - 1) (y.length / K)
        = ind.drop ((K - 1) * (y.length / K)) ∧
      (∀ k, k < K - 1 →
        (rangeSlice ind K k (y.length / K)).length = y.length / K) ∧
      (rangeSlice ind K (K - 1) (y.length / K)).length
        = y.length - (K - 1) * (y.length / K) ∧
      (((List.range K).map fun k => rangeSlice ind K k (y.length / K)).flatten) = ind) ∧
    makeKFolds (TrainTestSplitter.mk false none) 0 (List.range 10) 5 false
      = Except.ok ([[0, 1], [2, 3], [4, 5], [6, 7], [8, 9]], 0) := by
  obtain ⟨ind, g1, heq, hperm, hsh, hlen⟩ := makeKFolds_nonstrat s g y K (by omega)
  refine ⟨⟨ind, g1, heq, hperm, hsh, ?_, ?_, ?_, ?_, ?_⟩, by rfl⟩
  · intro k hk
    simp [rangeSlice, hk]
  · simp [rangeSlice]
  · intro k hk
    rw [← hlen]
    exact rangeSlice_length_of_lt ind K k hk
  · rw [rangeSlice_length_last, hlen]
  · exact rangeSlice_flatten K (by omega) ind (y.length / K)

/-- Witness for C7 at the concrete scenario input. -/
theorem C7_nonstrat_contiguous_witness :
    (List.range 10) ≠ ([] : List Nat) ∧ 1 < 5 ∧
    makeKFolds (TrainTestSplitter.mk false none) 0 (List.range 10) 5 false
      = Except.ok ([[0, 1], [2, 3], [4, 5], [6, 7], [8, 9]], 0) := by
  refine ⟨by decide, by decide, ?_⟩
  exact (C7_nonstrat_contiguous (TrainTestSplitter.mk false none) 0
    (List.range 10) 5 (by decide) (by decide)).2

/-- C8: for non-empty labels and `n_folds > 1` the stratified
`make_k_folds` yields `n_folds` groups that partition `{0, ..., n-1}`
exactly — no index is dropped or repeated; within each label group of
size `m`, each of the first `n_folds - 1` slices has size
`floor(m / n_folds)` and the last slice takes all remaining indices of
that group, the group's slices reassembling the whole group. -/
theorem C8_strat_partition {α : Type} [DecidableEq α] (s : TrainTestSplitter)
    (g : Nat) (y : List α) (K : Nat) (hy : y ≠ []) (hK : 1 < K) :
    ∃ fs g2, makeKFolds s g y K true = Except.ok (fs, g2) ∧
      fs.length = K ∧
      (∀ i, (∃ f, f ∈ fs ∧ i ∈ f) ↔ i < y.length) ∧
      fs.Pairwise List.Disjoint ∧
      (∀ p, p ∈ groupIndices y →
        (∀ k, k < K - 1 → (groupSlice p.2 K k).length = p.2.length / K) ∧
        (groupSlice p.2 K (K - 1)).length = p.2.length - (K - 1) * (p.2.length / K) ∧
        (((List.range K).map fun k => groupSlice p.2 K k).flatten) = p.2) := by
  obtain ⟨fs, g2, heq, hlen, hperm⟩ := makeKFolds_ok_perm s g y K true (by omega)
  refine ⟨fs, g2, heq, hlen, ?_, ?_, ?_⟩
  · intro i
    have hm : i ∈ fs.flatten ↔ i < y.length := by
      rw [hperm.mem_iff, List.mem_range]
    rw [← hm, List.mem_flatten]
  · have hnd : fs.flatten.Nodup := hperm.nodup_iff.mpr (List.nodup_range _)
    exact (List.nodup_flatten.mp hnd).2
  · intro p _
    exact ⟨fun k hk => groupSlice_length_of_lt p.2 K k hk,
      groupSlice_length_last p.2 K,
      groupSlice_flatten K (by omega) p.2⟩

/-- Witness for C8 at a concrete input with uneven groups. -/
theorem C8_strat_partition_witness :
    ([0, 0, 0, 0, 0, 1, 1] : List Nat) ≠ [] ∧ 1 < 3 ∧
    (∃ fs g2,
      makeKFolds (TrainTestSplitter.mk false none) 0
          ([0, 0, 0, 0, 0, 1, 1] : List Nat) 3 true = Except.ok (fs, g2) ∧
      fs.length = 3 ∧
      (∀ i, (∃ f, f ∈ fs ∧ i ∈ f) ↔ i < 7) ∧
      fs.Pairwise List.Disjoint ∧
      (∀ p, p ∈ groupIndices ([0, 0, 0, 0, 0, 1, 1] : List Nat) →
        (∀ k, k < 3 - 1 → (groupSlice p.2 3 k).length = p.2.length / 3) ∧
        (groupSlice p.2 3 (3 - 1)).length = p.2.length - (3 - 1) * (p.2.length / 3) ∧
        (((List.range 3).map fun k => groupSlice p.2 3 k).flatten) = p.2)) := by
  refine ⟨by decide, by decide, ?_⟩
  have h := C8_strat_partition (TrainTestSplitter.mk false none) 0
    ([0, 0, 0, 0, 0, 1, 1] : List Nat) 3 (by decide) (by decide)
  simpa using h

/-- C10: a label group smaller than `n_folds` gets per-fold slice size 0;
the first `n_folds - 1` folds receive none of its indices, the last fold
receives all of them, and no error is raised. -/
theorem C10_small_group {α : Type} [DecidableEq α] (s : TrainTestSplitter)
    (g : Nat) (y : List α) (K : Nat) (p : α × List Nat)
    (hp : p ∈ groupIndices y) (h0 : 0 < p.2.length) (hK : p.2.length < K) :
    p.2.length / K = 0 ∧
    (∀ k, k < K - 1 → groupSlice p.2 K k = []) ∧
    groupSlice p.2 K (K - 1) = p.2 ∧
    (∃ fs g2, makeKFolds s g y K true = Except.ok (fs, g2) ∧
      (∀ i, i ∈ p.2 → i ∈ fs.getD (K - 1) []) ∧
      (∀ k, k < K - 1 → ∀ i, i ∈ p.2 → i ∉ fs.getD k [])) := by
  have hdiv : p.2.length / K = 0 := Nat.div_eq_of_lt hK
  have hempty : ∀ k, k < K - 1 → groupSlice p.2 K k = [] := by
    intro k hk
    have hc : k ≠ K - 1 := by omega
    simp [groupSlice, hdiv, hc]
  have hlast : groupSlice p.2 K (K - 1) = p.2 := by
    have hc : ¬ (K - 1 ≠ K - 1) := by omega
    simp [groupSlice, hdiv, hc]
  obtain ⟨fs, g2, heq, hlen, hf2⟩ := makeKFolds_strat_shape s g y K
  have hchar := groupIndices_char y
  refine ⟨hdiv, hempty, hlast, fs, g2, heq, ?_, ?_⟩
  · intro i hi
    have hklt : K - 1 < fs.length := by omega
    have hperm := forall2_getD [] 0 hf2 (K - 1) hklt
    rw [range_getD K (K - 1) (by omega)] at hperm
    rw [hperm.mem_iff]
    refine List.mem_flatten.mpr ⟨groupSlice p.2 K (K - 1), ?_, by rwa [hlast]⟩
    exact List.mem_map.mpr ⟨p.2, List.mem_map.mpr ⟨p, hp, rfl⟩, rfl⟩
  · intro k hk i hi hcontra
    have hklt : k < fs.length := by omega
    have hperm := forall2_getD [] 0 hf2 k hklt
    rw [range_getD K k (by omega)] at hperm
    rw [hperm.mem_iff] at hcontra
    obtain ⟨l2, hl2, hil2⟩ := List.mem_flatten.mp hcontra
    obtain ⟨is2, his2, rfl⟩ := List.mem_map.mp hl2
    obtain ⟨q, hq, rfl⟩ := List.mem_map.mp his2
    have hiq : i ∈ q.2 := groupSlice_subset q.2 K k hil2
    have hyq : y[i]? = some q.1 := ((hchar.2.2 q hq).2 i).mp hiq
    have hyp : y[i]? = some p.1 := ((hchar.2.2 p hp).2 i).mp hi
    have hpq : p = q := groupIndices_label_inj y p q hp hq
      (Option.some_inj.mp (hyp.symm.trans hyq))
    rw [← hpq, hempty k hk] at hil2
    exact (List.not_mem_nil i) hil2

/-- Witness for C10: with labels `[0, 0, 1]` and 3 folds the group of
label 1 has one index, fewer than the fold count. -/
theorem C10_small_group_witness :
    ((1 : Nat), [2]) ∈ groupIndices ([0, 0, 1] : List Nat) ∧
    0 < ([2] : List Nat).length ∧ ([2] : List Nat).length < 3 ∧
    (([2] : List Nat).length / 3 = 0 ∧
    (∀ k, k < 3 - 1 → groupSlice [2] 3 k = []) ∧
    groupSlice [2] 3 (3 - 1) = [2] ∧
    (∃ fs g2, makeKFolds (TrainTestSplitter.mk false none) 0
        ([0, 0, 1] : List Nat) 3 true = Except.ok (fs, g2) ∧
      (∀ i, i ∈ ([2] : List Nat) → i ∈ fs.getD (3 - 1) []) ∧
      (∀ k, k < 3 - 1 → ∀ i, i ∈ ([2] : List Nat) → i ∉ fs.getD k []))) := by
  refine ⟨by decide, by decide, by decide, ?_⟩
  exact C10_small_group (TrainTestSplitter.mk false none) 0
    ([0, 0, 1] : List Nat) 3 ((1 : Nat), [2]) (by decide) (by decide) (by decide)

/-- C5: for non-empty labels and `n_folds > 1`, `k_fold_split` yields
exactly `n_folds` pairs; the `i`-th pair is the in-order concatenation of
all folds of the same `make_k_folds` run except fold `i`, paired with
fold `i`; consequently each pair's train and test are disjoint with
union `{0, ..., n-1}`. -/
theorem C5_kfold_pairs {α : Type} [DecidableEq α] (s : TrainTestSplitter)
    (g : Nat) (y : List α) (K : Nat) (st : Bool) (hy : y ≠ []) (hK : 1 < K) :
    ∃ folds pairs g2,
      makeKFolds s g y K st = Except.ok (folds, g2) ∧
      kFoldSplit s g y K st = Except.ok (pairs, g2) ∧
      pairs.length = K ∧
      (∀ i, i < K → pairs.getD i ([], [])
        = ((folds.take i ++ folds.drop (i + 1)).flatten, folds.getD i [])) ∧
      (∀ i, i < K →
        (∀ j, (j ∈ (pairs.getD i ([], [])).1 ∨ j ∈ (pairs.getD i ([], [])).2)
          ↔ j < y.length) ∧
        (∀ j, ¬ (j ∈ (pairs.getD i ([], [])).1 ∧ j ∈ (pairs.getD i ([], [])).2))) := by
  obtain ⟨folds, g2, heq, hlen, hperm⟩ := makeKFolds_ok_perm s g y K st (by omega)
  have hks := kFoldSplit_ok s g y K st folds g2 heq hlen (by omega)
  refine ⟨folds, _, g2, heq, hks, by simp, ?_, ?_⟩
  · intro i hi
    rw [getD_map_range ([], []) _ K i hi]
  · intro i hi
    rw [getD_map_range ([], []) _ K i hi]
    have hpp : (((folds.take i ++ folds.drop (i + 1)).flatten ++ folds.getD i [])).Perm
        (List.range y.length) :=
      (flatten_except_perm folds i (by omega)).trans hperm
    constructor
    · intro j
      have := @List.Perm.mem_iff Nat j _ _ hpp
      simpa [List.mem_append, List.mem_range, or_assoc] using this
    · intro j hj
      have hnd : ((folds.take i ++ folds.drop (i + 1)).flatten ++ folds.getD i []).Nodup :=
        hpp.nodup_iff.mpr (List.nodup_range _)
      rw [List.nodup_append] at hnd
      exact hnd.2.2 hj.1 hj.2

/-- Witness for C5 at `labels = [0,1,0,1]`, two folds. -/
theorem C5_kfold_pairs_witness :
    ([0, 1, 0, 1] : List Nat) ≠ [] ∧ 1 < 2 ∧
    (∃ folds pairs g2,
      makeKFolds (TrainTestSplitter.mk false none) 0 ([0, 1, 0, 1] : List Nat) 2 false
        = Except.ok (folds, g2) ∧
      kFoldSplit (TrainTestSplitter.mk false none) 0 ([0, 1, 0, 1] : List Nat) 2 false
        = Except.ok (pairs, g2) ∧
      pairs.length = 2 ∧
      (∀ i, i < 2 → pairs.getD i ([], [])
        = ((folds.take i ++ folds.drop (i + 1)).flatten, folds.getD i [])) ∧
      (∀ i, i < 2 →
        (∀ j, (j ∈ (pairs.getD i ([], [])).1 ∨ j ∈ (pairs.getD i ([], [])).2) ↔ j < 4) ∧
        (∀ j, ¬ (j ∈ (pairs.getD i ([], [])).1 ∧ j ∈ (pairs.getD i ([], [])).2)))) := by
  refine ⟨by decide, by decide, ?_⟩
  have h := C5_kfold_pairs (TrainTestSplitter.mk false none) 0
    ([0, 1, 0, 1] : List Nat) 2 false (by decide) (by decide)
  simpa using h

/-- C6: the stratified `split` works per label group, each group being
the ascending list of exactly the indices carrying its label; it takes
the first `floor(train_ratio * m)` of each group (the embedded
`trainSize` equals that rational floor) as train contribution, the rest
as test, concatenating across groups; with `shuffle` the two
concatenations are permuted independently.  On
`labels = [0,0,0,0,1,1,1,1]`, `train_ratio = 1/2`, `stratify = true`,
`shuffle = false`, train is `[0,1,4,5]` and test `[2,3,6,7]`. -/
theorem C6_stratified_structure {α : Type} [DecidableEq α] (y : List α)
    (rn rd : Nat) (hy : y ≠ []) (h0 : 0 < rn) (h1 : rn < rd) :
    (∀ p, p ∈ groupIndices y →
      p.2.Sorted (· < ·) ∧ (∀ j, j ∈ p.2 ↔ y[j]? = some p.1) ∧
      ((trainSize rn rd p.2.length : Int)
        = ⌊((rn : ℚ) / (rd : ℚ)) * (p.2.length : ℚ)⌋)) ∧
    (∀ sd gr, split (TrainTestSplitter.mk false sd) gr y rn rd true
      = Except.ok
        ((((groupIndices y).map fun p => p.2.take (trainSize rn rd p.2.length)).flatten,
          ((groupIndices y).map fun p => p.2.drop (trainSize rn rd p.2.length)).flatten),
         flushRng (TrainTestSplitter.mk false sd) gr)) ∧
    (∀ sd gr, ∃ tr te g2,
      split (TrainTestSplitter.mk true sd) gr y rn rd true = Except.ok ((tr, te), g2) ∧
      tr.Perm (((groupIndices y).map fun p => p.2.take (trainSize rn rd p.2.length)).flatten) ∧
      te.Perm (((groupIndices y).map fun p => p.2.drop (trainSize rn rd p.2.length)).flatten)) ∧
    split (TrainTestSplitter.mk false none) 0 ([0, 0, 0, 0, 1, 1, 1, 1] : List Nat) 1 2 true
      = Except.ok (([0, 1, 4, 5], [2, 3, 6, 7]), 0) := by
  have hchar := groupIndices_char y
  refine ⟨?_, ?_, ?_, by rfl⟩
  · intro p hp
    obtain ⟨hs, hiff⟩ := hchar.2.2 p hp
    exact ⟨hs, hiff, trainSize_eq_floor rn rd p.2.length (by omega)⟩
  · intro sd gr
    rfl
  · intro sd gr
    exact ⟨_, _, _, rfl, shuffleList_perm _ _, shuffleList_perm _ _⟩

/-- Witness for C6 at the concrete scenario input. -/
theorem C6_stratified_structure_witness :
    ([0, 0, 0, 0, 1, 1, 1, 1] : List Nat) ≠ [] ∧ 0 < 1 ∧ 1 < 2 ∧
    split (TrainTestSplitter.mk false none) 0 ([0, 0, 0, 0, 1, 1, 1, 1] : List Nat) 1 2 true
      = Except.ok (([0, 1, 4, 5], [2, 3, 6, 7]), 0) :=
  ⟨by decide, by decide, by decide,
    (C6_stratified_structure ([0, 0, 0, 0, 1, 1, 1, 1] : List Nat) 1 2
      (by decide) (by decide) (by decide)).2.2.2⟩

/-- C9: the loader demands a `model` key: without it, it errors before
constructing anything; with it, when the dotted path resolves to a class
in the (abstracted) import environment, it returns a model of that class
configured with the serialized fields — in particular every field other
than `model` is passed through unchanged. -/
theorem C9_load_model (classes : String → String → Bool)
    (params : List (String × String)) :
    (params.lookup ("model") = none →
      load_model classes params = Except.error ("missed required field: model")) ∧
    (∀ mp md nm, params.lookup ("model") = some mp →
      rsplitDot mp = some (md, nm) → classes md nm = true →
      ∃ m, load_model classes params = Except.ok m ∧ m.path = mp ∧
        ∀ k, k ≠ ("model" : String) → m.fields.lookup k = params.lookup k) := by
  constructor
  · intro hnone
    simp only [load_model, hnone]
  · intro mp md nm hlook hsplitd hcls
    refine ⟨⟨mp, params⟩, ?_, rfl, fun k _ => rfl⟩
    simp only [load_model, hlook, hsplitd, hcls, if_pos]

/-- Witness for C9: a mapping without the key errors, one with a
resolvable dotted path loads. -/
theorem C9_load_model_witness :
    (([(("L1"), ("0"))] : List (String × String)).lookup ("model") = none ∧
      load_model (fun _ _ => true) ([(("L1"), ("0"))] : List (String × String))
        = Except.error ("missed required field: model")) ∧
    (([(("model"), ("logreg.LogisticRegression")), (("L1"), ("0"))] :
        List (String × String)).lookup ("model") = some ("logreg.LogisticRegression") ∧
      rsplitDot ("logreg.LogisticRegression") = some (("logreg"), ("LogisticRegression")) ∧
      (∃ m, load_model (fun _ _ => true)
          ([(("model"), ("logreg.LogisticRegression")), (("L1"), ("0"))] :
            List (String × String)) = Except.ok m ∧
        m.path = ("logreg.LogisticRegression") ∧
        ∀ k, k ≠ ("model" : String) →
          m.fields.lookup k
            = ([(("model"), ("logreg.LogisticRegression")), (("L1"), ("0"))] :
                List (String × String)).lookup k)) := by
  refine ⟨⟨by decide, ?_⟩, by decide, by decide, ?_⟩
  · exact (C9_load_model (fun _ _ => true) ([(("L1"), ("0"))])).1 (by decide)
  · exact (C9_load_model (fun _ _ => true)
      ([(("model"), ("logreg.LogisticRegression")), (("L1"), ("0"))])).2
      ("logreg.LogisticRegression") ("logreg") ("LogisticRegression")
      (by decide) (by decide) (by decide)

end MnistSplit
